import Mathlib

/-!
Verification of the snapshot module of `catalyst-toolbox`
(`src/snapshot/mod.rs`): the snapshot-construction algorithm
`Snapshot::from_raw_snapshot`, its query surface, and the genesis exporter
`to_block0_initials`.

Embedding conventions:
* `u64`/`u32` quantities (voting power, weights, values) are modelled as `Nat`;
  the algorithm's arithmetic stays within bounds on the inputs considered here,
  so no wrap-around modelling is needed.
* `Identifier` (an Ed25519 public key used only as an ordered map key) is
  modelled as `Nat`; `MainnetRewardAddress` (an opaque string) as `String`.
* The Rust `BTreeMap<Identifier, Vec<KeyContribution>>` is modelled as an
  association list sorted strictly by key, which reproduces the map's
  deterministic key order; `entry(vk).or_default().push(c)` is `mapPush`.
* Fallible steps of the Rust code (the `.pop().expect(..)` on an empty
  weighted-delegation list, and the division by a zero `total_weights`, both
  of which panic) are modelled with `Option`: `none` is a panic.
-/

namespace CatalystSnapshot

/-- Modelled from the spec: voting key identifiers are opaque ordered keys
(the source's `Identifier` lives in `jormungandr_lib`, outside this repo). -/
abbrev Identifier := Nat

/-- Modelled from the spec: reward addresses are opaque
(`MainnetRewardAddress` is defined in `registration.rs`, which is not in
scope; the spec treats it as an opaque identifier). -/
abbrev MainnetRewardAddress := String

/-- Modelled from the spec: a delegation target is a single legacy key or an
ordered weighted list of keys (per `registration.rs`, not in scope; spec §3). -/
inductive Delegations where
  | Legacy (vk : Identifier)
  | New (vks : List (Identifier × Nat))
  deriving DecidableEq, Repr

/-- Modelled from the spec: one on-chain voter registration record
(per `registration.rs`, not in scope; spec §3). -/
structure VotingRegistration where
  stake_public_key : String
  voting_power : Nat
  reward_address : MainnetRewardAddress
  delegations : Delegations
  voting_purpose : Nat
  deriving DecidableEq, Repr

/-- Constant `CATALYST_VOTING_PURPOSE_TAG` from `snapshot/mod.rs`. -/
def CATALYST_VOTING_PURPOSE_TAG : Nat := 0

/-- Structure `KeyContribution` from `snapshot/mod.rs`: contribution to a voting key
for some registration. -/
structure KeyContribution where
  reward_address : MainnetRewardAddress
  value : Nat
  deriving DecidableEq, Repr

/-- The contents of the `BTreeMap<Identifier, Vec<KeyContribution>>`:
an association list kept sorted strictly by key. -/
abbrev SMap := List (Identifier × List KeyContribution)

/-- Structure `Snapshot` from `snapshot/mod.rs`. -/
structure Snapshot where
  inner : SMap
  stake_threshold : Nat
  deriving DecidableEq, Repr

/-- Operation `acc.entry(vk).or_default().push(c)` on the sorted association list:
append `c` to the entry of `k`, inserting the entry at its sorted position
if absent. -/
def mapPush (m : SMap) (k : Identifier) (c : KeyContribution) : SMap :=
  match m with
  | [] => [(k, [c])]
  | (k', cs) :: rest =>
    if k < k' then (k, [c]) :: (k', cs) :: rest
    else if k = k' then (k', cs ++ [c]) :: rest
    else (k', cs) :: mapPush rest k c

/-- The `filter_map` closure of the weighted-delegation arm: each non-last
entry receives the floor share `voting_power * weight / total_weights`,
entries whose share is zero are skipped. -/
def otherShares (reward_address : MainnetRewardAddress) (voting_power : Nat)
    (total_weights : Nat) (others : List (Identifier × Nat)) :
    List (Identifier × KeyContribution) :=
  others.filterMap fun p =>
    let value := voting_power * p.2 / total_weights
    if value = 0 then none else some (p.1, (⟨reward_address, value⟩ : KeyContribution))

/-- The sequence of `(voting key, contribution)` pushes a single registration
performs in the `match delegations` arm of `from_raw_snapshot`, in push order;
`none` models the panics (empty weighted list, division by zero). -/
def distribute (reward_address : MainnetRewardAddress) (voting_power : Nat) :
    Delegations → Option (List (Identifier × KeyContribution))
  | .Legacy vk => some [(vk, ⟨reward_address, voting_power⟩)]
  | .New vks =>
    match vks.getLast? with
    | none => none
    | some last =>
      let total_weights := (vks.map (fun p => p.2)).sum
      let others := vks.dropLast
      if others ≠ [] ∧ total_weights = 0 then
        none
      else
        let otherContribs := otherShares reward_address voting_power total_weights others
        let others_total_vp := (otherContribs.map (fun q => q.2.value)).sum
        some (otherContribs ++
          if others_total_vp ≠ voting_power then
            [(last.1, ⟨reward_address, voting_power - others_total_vp⟩)]
          else [])

/-- The pushes performed for one registration. -/
def regContribs (reg : VotingRegistration) : Option (List (Identifier × KeyContribution)) :=
  distribute reg.reward_address reg.voting_power reg.delegations

/-- Perform a sequence of pushes on the map. -/
def pushAll (m : SMap) (cs : List (Identifier × KeyContribution)) : SMap :=
  cs.foldl (fun acc p => mapPush acc p.1 p.2) m

/-- The fold of `from_raw_snapshot`, over the already-filtered registration
list: each registration's pushes are applied in order; a panic aborts. -/
def buildInner : List VotingRegistration → SMap → Option SMap
  | [], acc => some acc
  | r :: rs, acc =>
    match regContribs r with
    | none => none
    | some cs => buildInner rs (pushAll acc cs)

/-- Function `Snapshot::from_raw_snapshot`: filter by stake threshold, then by voting
purpose, then fold each surviving registration's distribution into the map. -/
def from_raw_snapshot (raw_snapshot : List VotingRegistration) (stake_threshold : Nat) :
    Option Snapshot :=
  (buildInner
    (((raw_snapshot.filter (fun reg => stake_threshold ≤ reg.voting_power)).filter
        (fun reg => reg.voting_purpose == CATALYST_VOTING_PURPOSE_TAG)))
    []).map
    fun inner => { inner := inner, stake_threshold := stake_threshold }

/-- Query `Snapshot::voting_keys`: the map's keys in its deterministic order. -/
def Snapshot.voting_keys (s : Snapshot) : List Identifier :=
  s.inner.map Prod.fst

/-- Query `Snapshot::contributions_for_voting_key`:
`inner.get(&key).cloned().unwrap_or_default()`. -/
def Snapshot.contributions_for_voting_key (s : Snapshot) (voting_public_key : Identifier) :
    List KeyContribution :=
  ((s.inner.find? (fun e => e.1 == voting_public_key)).map Prod.snd).getD []

/-- Type `chain_addr::Discrimination`. -/
inductive Discrimination where
  | Production
  | Test
  deriving DecidableEq, Repr

/-- The address `chain_addr::Address(discrimination, Kind::Account(vk))`, kept opaque:
the deterministic derivation of a chain address from a voting key under a
discrimination mode. -/
structure Address where
  discrimination : Discrimination
  account : Identifier
  deriving DecidableEq, Repr

/-- Exporter `Snapshot::to_block0_initials`: one `(address, value)` initial-fund record
per map entry, the value being the sum of the entry's contribution values. -/
def Snapshot.to_block0_initials (s : Snapshot) (discrimination : Discrimination) :
    List (Address × Nat) :=
  s.inner.map fun e =>
    (⟨discrimination, e.1⟩, (e.2.map (fun c => c.value)).sum)

/-! Verification-specific definitions -/

/-- The map's entries are strictly sorted by key (the `BTreeMap` invariant). -/
def SortedMap (m : SMap) : Prop :=
  m.Pairwise (fun a b => a.1 < b.1)

/-- The value list stored at a key, `[]` when absent (the common core of
`contributions_for_voting_key` and of the lemmas below). -/
def lookupM (m : SMap) (k : Identifier) : List KeyContribution :=
  ((m.find? (fun e => e.1 == k)).map Prod.snd).getD []

/-- The contributions to key `k` inside a push sequence, in push order. -/
def proj (k : Identifier) (cs : List (Identifier × KeyContribution)) :
    List KeyContribution :=
  cs.filterMap fun p => if p.1 = k then some p.2 else none

/-- The concatenated push sequence of a registration list (for lists where no
registration panics, the `getD` is exact). -/
def contribsOf (rs : List VotingRegistration) : List (Identifier × KeyContribution) :=
  rs.flatMap fun r => (regContribs r).getD []

/-- The registration list surviving both filters of `from_raw_snapshot`. -/
def filteredRegs (raw : List VotingRegistration) (stake_threshold : Nat) :
    List VotingRegistration :=
  (raw.filter fun reg => stake_threshold ≤ reg.voting_power).filter
    fun reg => reg.voting_purpose == CATALYST_VOTING_PURPOSE_TAG

/-- The well-formedness contract of the upstream decoder (spec §3, §7): a
weighted delegation has at least one entry, and every weight is a positive
integer. -/
def WfReg (r : VotingRegistration) : Prop :=
  match r.delegations with
  | .Legacy _ => True
  | .New vks => vks ≠ [] ∧ ∀ p ∈ vks, 1 ≤ p.2

instance (r : VotingRegistration) : Decidable (WfReg r) :=
  match hd : r.delegations with
  | .Legacy vk => isTrue (by unfold WfReg; rw [hd]; trivial)
  | .New vks =>
    decidable_of_iff (vks ≠ [] ∧ ∀ p ∈ vks, 1 ≤ p.2) (by unfold WfReg; rw [hd])

/-! Infrastructure: the sorted association list models the `BTreeMap` -/

theorem contributions_eq_lookupM (s : Snapshot) (k : Identifier) :
    s.contributions_for_voting_key k = lookupM s.inner k := rfl

theorem lookupM_nil (k : Identifier) : lookupM [] k = [] := rfl

theorem lookupM_cons (k' : Identifier) (cs : List KeyContribution) (m : SMap)
    (k : Identifier) :
    lookupM ((k', cs) :: m) k = if k' = k then cs else lookupM m k := by
  by_cases h : k' = k
  · subst h
    simp [lookupM, List.find?]
  · have hb : ((k' : Identifier) == k) = false := by
      simp [h]
    simp only [lookupM, List.find?, hb, if_neg h]

theorem lookupM_eq_nil_of_forall_ne (m : SMap) (k : Identifier)
    (h : ∀ e ∈ m, e.1 ≠ k) : lookupM m k = [] := by
  induction m with
  | nil => rfl
  | cons e rest ih =>
    rw [show e = (e.1, e.2) from rfl, lookupM_cons]
    rw [if_neg (h e (by simp))]
    exact ih fun x hx => h x (by simp [hx])

theorem mapPush_cons_lt (k₀ : Identifier) (cs : List KeyContribution) (m : SMap)
    (k : Identifier) (c : KeyContribution) (h : k < k₀) :
    mapPush ((k₀, cs) :: m) k c = (k, [c]) :: (k₀, cs) :: m := by
  simp [mapPush, h]

theorem mapPush_cons_self (k₀ : Identifier) (cs : List KeyContribution) (m : SMap)
    (c : KeyContribution) :
    mapPush ((k₀, cs) :: m) k₀ c = (k₀, cs ++ [c]) :: m := by
  simp [mapPush]

theorem mapPush_cons_gt (k₀ : Identifier) (cs : List KeyContribution) (m : SMap)
    (k : Identifier) (c : KeyContribution) (h : k₀ < k) :
    mapPush ((k₀, cs) :: m) k c = (k₀, cs) :: mapPush m k c := by
  have h1 : ¬(k < k₀) := Nat.lt_asymm h
  have h2 : ¬(k = k₀) := Ne.symm (Nat.ne_of_lt h)
  simp [mapPush, h1, h2]

theorem mapPush_ne_nil (m : SMap) (k : Identifier) (c : KeyContribution) :
    mapPush m k c ≠ [] := by
  cases m with
  | nil => simp [mapPush]
  | cons e rest =>
    obtain ⟨k₀, cs⟩ := e
    rcases lt_trichotomy k k₀ with h | h | h
    · rw [mapPush_cons_lt _ _ _ _ _ h]
      simp
    · subst h
      rw [mapPush_cons_self]
      simp
    · rw [mapPush_cons_gt _ _ _ _ _ h]
      simp

theorem mem_keys_mapPush (m : SMap) (k : Identifier) (c : KeyContribution)
    (a : Identifier) :
    a ∈ (mapPush m k c).map Prod.fst ↔ a = k ∨ a ∈ m.map Prod.fst := by
  induction m with
  | nil =>
    simp [mapPush]
  | cons e rest ih =>
    obtain ⟨k₀, cs⟩ := e
    rcases lt_trichotomy k k₀ with h | h | h
    · rw [mapPush_cons_lt _ _ _ _ _ h]
      simp only [List.map_cons, List.mem_cons]
    · subst h
      rw [mapPush_cons_self]
      simp only [List.map_cons, List.mem_cons]
      tauto
    · rw [mapPush_cons_gt _ _ _ _ _ h]
      simp only [List.map_cons, List.mem_cons, ih]
      tauto

theorem sortedMap_mapPush (m : SMap) (k : Identifier) (c : KeyContribution)
    (hm : SortedMap m) : SortedMap (mapPush m k c) := by
  induction m with
  | nil =>
    simp [mapPush, SortedMap]
  | cons e rest ih =>
    obtain ⟨k₀, cs⟩ := e
    unfold SortedMap at hm ⊢
    rw [List.pairwise_cons] at hm
    obtain ⟨hlt, hrest⟩ := hm
    rcases lt_trichotomy k k₀ with h | h | h
    · rw [mapPush_cons_lt _ _ _ _ _ h]
      refine List.pairwise_cons.mpr ⟨?_, List.pairwise_cons.mpr ⟨hlt, hrest⟩⟩
      intro b hb
      rcases List.mem_cons.mp hb with hb | hb
      · subst hb
        exact h
      · exact Nat.lt_trans h (hlt b hb)
    · subst h
      rw [mapPush_cons_self]
      exact List.pairwise_cons.mpr ⟨hlt, hrest⟩
    · rw [mapPush_cons_gt _ _ _ _ _ h]
      refine List.pairwise_cons.mpr ⟨?_, ih hrest⟩
      intro b hb
      have hb1 : b.1 ∈ (mapPush rest k c).map Prod.fst := List.mem_map.mpr ⟨b, hb, rfl⟩
      rcases (mem_keys_mapPush rest k c b.1).mp hb1 with hb2 | hb2
      · show k₀ < b.1
        rw [hb2]
        exact h
      · obtain ⟨e2, he2, he2eq⟩ := List.mem_map.mp hb2
        show k₀ < b.1
        rw [← he2eq]
        exact hlt e2 he2

theorem lookupM_mapPush (m : SMap) (k : Identifier) (c : KeyContribution)
    (k' : Identifier) (hm : SortedMap m) :
    lookupM (mapPush m k c) k' =
      if k' = k then lookupM m k' ++ [c] else lookupM m k' := by
  induction m with
  | nil =>
    show lookupM [(k, [c])] k' = _
    rw [lookupM_cons, lookupM_nil]
    by_cases h : k' = k
    · rw [if_pos h.symm, if_pos h]
      simp
    · rw [if_neg (fun h2 => h h2.symm), if_neg h]
  | cons e rest ih =>
    obtain ⟨k₀, cs⟩ := e
    unfold SortedMap at hm
    rw [List.pairwise_cons] at hm
    obtain ⟨hlt, hrest⟩ := hm
    rcases lt_trichotomy k k₀ with h | h | h
    · rw [mapPush_cons_lt _ _ _ _ _ h, lookupM_cons, lookupM_cons]
      by_cases h1 : k = k'
      · subst h1
        have h2 : k₀ ≠ k := Ne.symm (Nat.ne_of_lt h)
        rw [if_pos rfl, if_pos rfl, if_neg h2]
        rw [lookupM_eq_nil_of_forall_ne rest k
          (fun x hx => Ne.symm (Nat.ne_of_lt (Nat.lt_trans h (hlt x hx))))]
        simp
      · rw [if_neg h1, if_neg (show ¬(k' = k) from fun hkk => h1 hkk.symm)]
    · subst h
      rw [mapPush_cons_self, lookupM_cons, lookupM_cons]
      by_cases h1 : k = k'
      · subst h1
        simp
      · rw [if_neg h1, if_neg (fun h2 => h1 h2.symm), if_neg h1]
    · rw [mapPush_cons_gt _ _ _ _ _ h, lookupM_cons, lookupM_cons, ih hrest]
      by_cases h1 : k₀ = k'
      · have h2 : k' ≠ k := h1 ▸ Nat.ne_of_lt h
        rw [if_pos h1, if_neg h2, if_pos h1]
      · rw [if_neg h1, if_neg h1]

theorem nonNil_mapPush (m : SMap) (k : Identifier) (c : KeyContribution)
    (hm : ∀ e ∈ m, e.2 ≠ []) : ∀ e ∈ mapPush m k c, e.2 ≠ [] := by
  induction m with
  | nil =>
    simp [mapPush]
  | cons e0 rest ih =>
    obtain ⟨k₀, cs⟩ := e0
    have hm0 : cs ≠ [] := hm (k₀, cs) (by simp)
    have hmr : ∀ e ∈ rest, e.2 ≠ [] := fun x hx => hm x (List.mem_cons_of_mem _ hx)
    rcases lt_trichotomy k k₀ with h | h | h
    · rw [mapPush_cons_lt _ _ _ _ _ h]
      intro e he
      rcases List.mem_cons.mp he with he | he
      · subst he
        simp
      · exact hm e he
    · subst h
      rw [mapPush_cons_self]
      intro e he
      rcases List.mem_cons.mp he with he | he
      · subst he
        simp [hm0]
      · exact hmr e he
    · rw [mapPush_cons_gt _ _ _ _ _ h]
      intro e he
      rcases List.mem_cons.mp he with he | he
      · subst he
        exact hm0
      · exact ih hmr e he

/-! The fold characterized by per-key projection of the push sequence -/

theorem proj_nil (k : Identifier) : proj k [] = [] := rfl

theorem proj_append (k : Identifier) (cs ds : List (Identifier × KeyContribution)) :
    proj k (cs ++ ds) = proj k cs ++ proj k ds :=
  List.filterMap_append ..

theorem proj_cons (k : Identifier) (p : Identifier × KeyContribution)
    (cs : List (Identifier × KeyContribution)) :
    proj k (p :: cs) = (if p.1 = k then [p.2] else []) ++ proj k cs := by
  unfold proj
  rw [List.filterMap_cons]
  by_cases h : p.1 = k
  · simp [h]
  · simp [h]

theorem pushAll_nil (m : SMap) : pushAll m [] = m := rfl

theorem pushAll_cons (m : SMap) (p : Identifier × KeyContribution)
    (cs : List (Identifier × KeyContribution)) :
    pushAll m (p :: cs) = pushAll (mapPush m p.1 p.2) cs := rfl

theorem sortedMap_pushAll (cs : List (Identifier × KeyContribution)) :
    ∀ m : SMap, SortedMap m → SortedMap (pushAll m cs) := by
  induction cs with
  | nil =>
    intro m hm
    exact hm
  | cons p cs ih =>
    intro m hm
    rw [pushAll_cons]
    exact ih _ (sortedMap_mapPush m p.1 p.2 hm)

theorem nonNil_pushAll (cs : List (Identifier × KeyContribution)) :
    ∀ m : SMap, (∀ e ∈ m, e.2 ≠ []) → ∀ e ∈ pushAll m cs, e.2 ≠ [] := by
  induction cs with
  | nil =>
    intro m hm
    exact hm
  | cons p cs ih =>
    intro m hm
    rw [pushAll_cons]
    exact ih _ (nonNil_mapPush m p.1 p.2 hm)

theorem lookupM_pushAll (cs : List (Identifier × KeyContribution)) :
    ∀ m : SMap, SortedMap m → ∀ k,
      lookupM (pushAll m cs) k = lookupM m k ++ proj k cs := by
  induction cs with
  | nil =>
    intro m hm k
    simp [pushAll_nil, proj_nil]
  | cons p cs ih =>
    intro m hm k
    rw [pushAll_cons, ih _ (sortedMap_mapPush m p.1 p.2 hm) k,
      lookupM_mapPush m p.1 p.2 k hm, proj_cons]
    by_cases h : k = p.1
    · rw [if_pos h, if_pos h.symm, List.append_assoc]
    · rw [if_neg h, if_neg (show ¬(p.1 = k) from fun h2 => h h2.symm)]
      simp

theorem pushAll_ne_nil (cs : List (Identifier × KeyContribution)) :
    ∀ m : SMap, m ≠ [] → pushAll m cs ≠ [] := by
  induction cs with
  | nil =>
    intro m hm
    exact hm
  | cons p cs ih =>
    intro m hm
    rw [pushAll_cons]
    exact ih _ (mapPush_ne_nil m p.1 p.2)

theorem pushAll_nil_eq_nil_iff (cs : List (Identifier × KeyContribution)) :
    pushAll [] cs = [] ↔ cs = [] := by
  cases cs with
  | nil => simp [pushAll_nil]
  | cons p cs =>
    rw [pushAll_cons]
    constructor
    · intro h
      exact absurd h (pushAll_ne_nil cs _ (mapPush_ne_nil [] p.1 p.2))
    · intro h
      exact absurd h (by simp)

theorem contribsOf_nil : contribsOf [] = [] := rfl

theorem contribsOf_cons (r : VotingRegistration) (rs : List VotingRegistration) :
    contribsOf (r :: rs) = (regContribs r).getD [] ++ contribsOf rs := rfl

theorem buildInner_isSome (rs : List VotingRegistration) :
    ∀ acc : SMap,
      (buildInner rs acc).isSome = rs.all fun r => (regContribs r).isSome := by
  induction rs with
  | nil =>
    intro acc
    simp [buildInner]
  | cons r rs ih =>
    intro acc
    rw [List.all_cons]
    unfold buildInner
    cases h : regContribs r with
    | none => simp [h]
    | some cs => simp [h, ih]

theorem buildInner_spec (rs : List VotingRegistration) :
    ∀ acc m : SMap, buildInner rs acc = some m → SortedMap acc →
      (∀ e ∈ acc, e.2 ≠ []) →
      SortedMap m ∧ (∀ e ∈ m, e.2 ≠ []) ∧
        ∀ k, lookupM m k = lookupM acc k ++ proj k (contribsOf rs) := by
  induction rs with
  | nil =>
    intro acc m hm hs hn
    cases hm
    exact ⟨hs, hn, fun k => by simp [contribsOf_nil, proj_nil]⟩
  | cons r rs ih =>
    intro acc m hm hs hn
    unfold buildInner at hm
    cases h : regContribs r with
    | none =>
      rw [h] at hm
      cases hm
    | some cs =>
      rw [h] at hm
      obtain ⟨hs2, hn2, hl2⟩ := ih (pushAll acc cs) m hm
        (sortedMap_pushAll cs acc hs) (nonNil_pushAll cs acc hn)
      refine ⟨hs2, hn2, fun k => ?_⟩
      rw [hl2 k, lookupM_pushAll cs acc hs k, contribsOf_cons, h]
      simp only [Option.getD_some, proj_append, List.append_assoc]

theorem from_raw_snapshot_eq (raw : List VotingRegistration) (t : Nat) :
    from_raw_snapshot raw t =
      (buildInner (filteredRegs raw t) []).map fun inner =>
        { inner := inner, stake_threshold := t } := rfl

theorem from_raw_snapshot_isSome (raw : List VotingRegistration) (t : Nat) :
    (from_raw_snapshot raw t).isSome =
      (filteredRegs raw t).all fun r => (regContribs r).isSome := by
  rw [← buildInner_isSome (filteredRegs raw t) [], from_raw_snapshot_eq]
  cases buildInner (filteredRegs raw t) [] <;> rfl

theorem from_raw_snapshot_spec (raw : List VotingRegistration) (t : Nat)
    (s : Snapshot) (h : from_raw_snapshot raw t = some s) :
    SortedMap s.inner ∧ (∀ e ∈ s.inner, e.2 ≠ []) ∧
      ∀ k, lookupM s.inner k = proj k (contribsOf (filteredRegs raw t)) := by
  rw [from_raw_snapshot_eq] at h
  cases hb : buildInner (filteredRegs raw t) [] with
  | none =>
    rw [hb] at h
    cases h
  | some inner =>
    rw [hb] at h
    cases h
    obtain ⟨hs, hn, hl⟩ := buildInner_spec _ [] inner hb
      (by simp [SortedMap]) (by simp)
    exact ⟨hs, hn, fun k => by rw [hl k, lookupM_nil, List.nil_append]⟩

theorem mem_keys_iff_lookupM_ne_nil (m : SMap) (hn : ∀ e ∈ m, e.2 ≠ [])
    (k : Identifier) : k ∈ m.map Prod.fst ↔ lookupM m k ≠ [] := by
  constructor
  · intro hk
    obtain ⟨e, he, heq⟩ := List.mem_map.mp hk
    have hfind : (m.find? fun x => x.1 == k).isSome := by
      rw [List.find?_isSome]
      exact ⟨e, he, by simp [heq]⟩
    obtain ⟨e2, he2⟩ := Option.isSome_iff_exists.mp hfind
    have he2m := List.mem_of_find?_eq_some he2
    unfold lookupM
    rw [he2]
    exact hn e2 he2m
  · intro hne
    by_contra hk
    have : m.find? (fun x => x.1 == k) = none := by
      rw [List.find?_eq_none]
      intro x hx hb
      exact hk (List.mem_map.mpr ⟨x, hx, by simpa using hb⟩)
    unfold lookupM at hne
    rw [this] at hne
    exact hne rfl

theorem lookupM_entry (m : SMap) (hm : SortedMap m) (k : Identifier)
    (cs : List KeyContribution) (h : (k, cs) ∈ m) : lookupM m k = cs := by
  induction m with
  | nil =>
    cases h
  | cons e rest ih =>
    obtain ⟨k₀, cs₀⟩ := e
    unfold SortedMap at hm
    rw [List.pairwise_cons] at hm
    obtain ⟨hlt, hrest⟩ := hm
    rw [lookupM_cons]
    rcases List.mem_cons.mp h with h | h
    · injection h with h1 h2
      rw [if_pos h1.symm]
      exact h2.symm
    · have hne : k₀ ≠ k := by
        have := hlt (k, cs) h
        exact Nat.ne_of_lt this
      rw [if_neg hne]
      exact ih hrest h

/-! Arithmetic of the weighted distribution -/

theorem sum_otherShares (reward : MainnetRewardAddress) (vp tw : Nat)
    (others : List (Identifier × Nat)) :
    ((otherShares reward vp tw others).map fun q => q.2.value).sum =
      (others.map fun p => vp * p.2 / tw).sum := by
  induction others with
  | nil => rfl
  | cons p ps ih =>
    unfold otherShares at ih ⊢
    rw [List.filterMap_cons]
    by_cases h : vp * p.2 / tw = 0
    · simp [h, ih]
    · simp [h, ih]

theorem mem_otherShares_pos (reward : MainnetRewardAddress) (vp tw : Nat)
    (others : List (Identifier × Nat)) (q : Identifier × KeyContribution)
    (h : q ∈ otherShares reward vp tw others) : 0 < q.2.value := by
  obtain ⟨p, hp, hpq⟩ := List.mem_filterMap.mp h
  by_cases hz : vp * p.2 / tw = 0
  · simp only [hz, if_pos rfl] at hpq
    cases hpq
  · simp only [if_neg hz] at hpq
    cases hpq
    simpa using Nat.pos_of_ne_zero hz

theorem sum_div_le (l : List Nat) (c : Nat) :
    (l.map fun a => a / c).sum ≤ l.sum / c := by
  induction l with
  | nil => simp
  | cons a l ih =>
    rw [List.map_cons, List.sum_cons, List.sum_cons]
    calc a / c + (l.map fun a => a / c).sum
        ≤ a / c + l.sum / c := Nat.add_le_add_left ih _
      _ ≤ (a + l.sum) / c := Nat.add_div_le_add_div a l.sum c

theorem share_sum_le (vp tw : Nat) (others : List (Identifier × Nat))
    (htw : tw ≠ 0) (hw : (others.map fun p => p.2).sum ≤ tw) :
    (others.map fun p => vp * p.2 / tw).sum ≤ vp := by
  have h1 : (others.map fun p => vp * p.2 / tw).sum
      ≤ (others.map fun p => vp * p.2).sum / tw := by
    have := sum_div_le (others.map fun p => vp * p.2) tw
    rwa [List.map_map] at this
  have h2 : (others.map fun p => vp * p.2).sum = vp * (others.map fun p => p.2).sum := by
    rw [← List.sum_map_mul_left]
  have h3 : vp * (others.map fun p => p.2).sum / tw ≤ vp * tw / tw :=
    Nat.div_le_div_right (Nat.mul_le_mul_left vp hw)
  rw [Nat.mul_div_cancel vp (Nat.pos_of_ne_zero htw)] at h3
  calc (others.map fun p => vp * p.2 / tw).sum
      ≤ (others.map fun p => vp * p.2).sum / tw := h1
    _ = vp * (others.map fun p => p.2).sum / tw := by rw [h2]
    _ ≤ vp := h3

theorem dropLast_concat_of_getLast? {α : Type} (l : List α) (a : α)
    (h : l.getLast? = some a) : l.dropLast ++ [a] = l := by
  have hne : l ≠ [] := by
    intro he
    subst he
    cases h
  have h2 := List.getLast?_eq_getLast l hne
  rw [h2] at h
  injection h with h3
  rw [← h3]
  exact List.dropLast_append_getLast hne

theorem others_weight_le (vks : List (Identifier × Nat)) (last : Identifier × Nat)
    (hlast : vks.getLast? = some last) :
    (vks.dropLast.map fun p => p.2).sum ≤ (vks.map fun p => p.2).sum := by
  conv_rhs => rw [← dropLast_concat_of_getLast? vks last hlast]
  rw [List.map_append, List.sum_append]
  exact Nat.le_add_right _ _

/-- The unfolded success case of the weighted-delegation arm. -/
theorem distribute_new_eq (reward : MainnetRewardAddress) (vp : Nat)
    (vks : List (Identifier × Nat)) (last : Identifier × Nat)
    (hlast : vks.getLast? = some last)
    (hok : ¬(vks.dropLast ≠ [] ∧ (vks.map fun p => p.2).sum = 0)) :
    distribute reward vp (.New vks) =
      some (otherShares reward vp ((vks.map fun p => p.2).sum) vks.dropLast ++
        if ((otherShares reward vp ((vks.map fun p => p.2).sum) vks.dropLast).map
              fun q => q.2.value).sum ≠ vp then
          [(last.1,
            ⟨reward, vp - ((otherShares reward vp ((vks.map fun p => p.2).sum)
              vks.dropLast).map fun q => q.2.value).sum⟩)]
        else []) := by
  unfold distribute
  simp only [hlast, if_neg hok]

/-- The total distributed across the contributions of one registration is below
or equal to its voting power even before the remainder entry is appended. -/
theorem others_total_le (reward : MainnetRewardAddress) (vp : Nat)
    (vks : List (Identifier × Nat)) (last : Identifier × Nat)
    (hlast : vks.getLast? = some last)
    (hok : ¬(vks.dropLast ≠ [] ∧ (vks.map fun p => p.2).sum = 0)) :
    ((otherShares reward vp ((vks.map fun p => p.2).sum) vks.dropLast).map
      fun q => q.2.value).sum ≤ vp := by
  rw [sum_otherShares]
  by_cases hnil : vks.dropLast = []
  · rw [hnil]
    simp
  · have htw : (vks.map fun p => p.2).sum ≠ 0 := by
      intro hz
      exact hok ⟨hnil, hz⟩
    exact share_sum_le vp _ _ htw (others_weight_le vks last hlast)

/-- Sum preservation for one registration: whatever `distribute` emits sums to
exactly the voting power. -/
theorem distribute_sum (reward : MainnetRewardAddress) (vp : Nat)
    (d : Delegations) (l : List (Identifier × KeyContribution))
    (h : distribute reward vp d = some l) :
    (l.map fun q => q.2.value).sum = vp := by
  cases d with
  | Legacy vk =>
    unfold distribute at h
    injection h with h
    rw [← h]
    simp
  | New vks =>
    cases hlast : vks.getLast? with
    | none =>
      simp only [distribute, hlast] at h
      cases h
    | some last =>
      by_cases hok : vks.dropLast ≠ [] ∧ (vks.map fun p => p.2).sum = 0
      · simp only [distribute, hlast, if_pos hok] at h
        cases h
      · rw [distribute_new_eq reward vp vks last hlast hok] at h
        injection h with h
        rw [← h]
        have hle := others_total_le reward vp vks last hlast hok
        rw [List.map_append, List.sum_append]
        by_cases heq :
            ((otherShares reward vp ((vks.map fun p => p.2).sum) vks.dropLast).map
              fun q => q.2.value).sum ≠ vp
        · rw [if_pos heq]
          simp only [List.map_cons, List.map_nil, List.sum_cons, List.sum_nil]
          omega
        · rw [if_neg heq]
          simp only [List.map_nil, List.sum_nil, Nat.add_zero]
          omega

theorem otherShares_zero_vp (reward : MainnetRewardAddress) (tw : Nat)
    (others : List (Identifier × Nat)) : otherShares reward 0 tw others = [] := by
  induction others with
  | nil => rfl
  | cons p ps ih =>
    unfold otherShares at ih ⊢
    rw [List.filterMap_cons]
    simp [ih]

/-- Every contribution emitted by the weighted-delegation arm is strictly
positive: zero floor-shares are skipped and the last entry is pushed only
when the remainder is non-zero. -/
theorem distribute_new_pos (reward : MainnetRewardAddress) (vp : Nat)
    (vks : List (Identifier × Nat)) (l : List (Identifier × KeyContribution))
    (h : distribute reward vp (.New vks) = some l) :
    ∀ q ∈ l, 0 < q.2.value := by
  cases hlast : vks.getLast? with
  | none =>
    simp only [distribute, hlast] at h
    cases h
  | some last =>
    by_cases hok : vks.dropLast ≠ [] ∧ (vks.map fun p => p.2).sum = 0
    · simp only [distribute, hlast, if_pos hok] at h
      cases h
    · rw [distribute_new_eq reward vp vks last hlast hok] at h
      injection h with h
      rw [← h]
      intro q hq
      rcases List.mem_append.mp hq with hq | hq
      · exact mem_otherShares_pos reward vp _ _ q hq
      · have hle := others_total_le reward vp vks last hlast hok
        by_cases heq :
            ((otherShares reward vp ((vks.map fun p => p.2).sum) vks.dropLast).map
              fun q => q.2.value).sum ≠ vp
        · rw [if_pos heq] at hq
          rcases List.mem_cons.mp hq with hq | hq
          · subst hq
            simp only
            omega
          · cases hq
        · rw [if_neg heq] at hq
          cases hq

/-- The weighted-delegation arm emits no contribution at all exactly when the
voting power is zero. -/
theorem distribute_new_nil_iff (reward : MainnetRewardAddress) (vp : Nat)
    (vks : List (Identifier × Nat)) (l : List (Identifier × KeyContribution))
    (h : distribute reward vp (.New vks) = some l) :
    l = [] ↔ vp = 0 := by
  cases hlast : vks.getLast? with
  | none =>
    simp only [distribute, hlast] at h
    cases h
  | some last =>
    by_cases hok : vks.dropLast ≠ [] ∧ (vks.map fun p => p.2).sum = 0
    · simp only [distribute, hlast, if_pos hok] at h
      cases h
    · rw [distribute_new_eq reward vp vks last hlast hok] at h
      injection h with h
      rw [← h]
      constructor
      · intro hnil
        obtain ⟨h1, h2⟩ := List.append_eq_nil.mp hnil
        have hzero :
            ((otherShares reward vp ((vks.map fun p => p.2).sum) vks.dropLast).map
              fun q => q.2.value).sum = 0 := by
          rw [h1]
          rfl
        by_cases heq :
            ((otherShares reward vp ((vks.map fun p => p.2).sum) vks.dropLast).map
              fun q => q.2.value).sum ≠ vp
        · rw [if_pos heq] at h2
          cases h2
        · omega
      · intro hvp
        subst hvp
        rw [otherShares_zero_vp]
        simp

/-- Under the decoder's contract the distribution step cannot panic. -/
theorem regContribs_isSome_of_wf (r : VotingRegistration) (hw : WfReg r) :
    (regContribs r).isSome := by
  unfold regContribs WfReg at *
  cases hd : r.delegations with
  | Legacy vk => rfl
  | New vks =>
    rw [hd] at hw
    obtain ⟨hne, hpos⟩ := hw
    have hlast : vks.getLast?.isSome := List.getLast?_isSome.mpr hne
    obtain ⟨last, hl⟩ := Option.isSome_iff_exists.mp hlast
    have hmem : last ∈ vks := by
      have h2 := List.getLast?_eq_getLast vks hne
      rw [h2] at hl
      injection hl with hl
      rw [← hl]
      exact List.getLast_mem hne
    have htw : (vks.map fun p => p.2).sum ≠ 0 := by
      have h1 : 1 ≤ last.2 := hpos last hmem
      have h2 : last.2 ≤ (vks.map fun p => p.2).sum :=
        List.single_le_sum (fun x _ => Nat.zero_le x) _
          (List.mem_map.mpr ⟨last, hmem, rfl⟩)
      omega
    have hok : ¬(vks.dropLast ≠ [] ∧ (vks.map fun p => p.2).sum = 0) := by
      intro hc
      exact htw hc.2
    rw [distribute_new_eq _ _ vks last hl hok]
    rfl

/-! Filter helpers -/

theorem mem_filteredRegs (raw : List VotingRegistration) (t : Nat)
    (r : VotingRegistration) :
    r ∈ filteredRegs raw t ↔
      r ∈ raw ∧ t ≤ r.voting_power ∧
        r.voting_purpose = CATALYST_VOTING_PURPOSE_TAG := by
  unfold filteredRegs
  rw [List.mem_filter, List.mem_filter]
  constructor
  · intro ⟨⟨h1, h2⟩, h3⟩
    refine ⟨h1, by simpa using h2, by simpa using h3⟩
  · intro ⟨h1, h2, h3⟩
    exact ⟨⟨h1, by simpa using h2⟩, by simpa using h3⟩

theorem filteredRegs_singleton (r : VotingRegistration) (t : Nat) :
    filteredRegs [r] t =
      if t ≤ r.voting_power ∧ r.voting_purpose = CATALYST_VOTING_PURPOSE_TAG
      then [r] else [] := by
  unfold filteredRegs
  by_cases h1 : t ≤ r.voting_power <;>
    by_cases h2 : r.voting_purpose = CATALYST_VOTING_PURPOSE_TAG <;>
      simp [h1, h2, List.filter]

theorem all_of_perm {α : Type} (l l' : List α) (p : α → Bool) (h : l.Perm l') :
    l.all p = l'.all p := by
  cases h1 : l.all p <;> cases h2 : l'.all p
  · rfl
  · rw [List.all_eq_false] at h1
    obtain ⟨x, hx, hpx⟩ := h1
    rw [List.all_eq_true] at h2
    exact absurd (h2 x (h.subset hx)) hpx
  · rw [List.all_eq_false] at h2
    obtain ⟨x, hx, hpx⟩ := h2
    rw [List.all_eq_true] at h1
    exact absurd (h1 x (h.symm.subset hx)) hpx
  · rfl

theorem eq_of_sorted_of_mem_iff :
    ∀ l₁ l₂ : List Nat, l₁.Pairwise (· < ·) → l₂.Pairwise (· < ·) →
      (∀ a, a ∈ l₁ ↔ a ∈ l₂) → l₁ = l₂ := by
  intro l₁
  induction l₁ with
  | nil =>
    intro l₂ h1 h2 hm
    cases l₂ with
    | nil => rfl
    | cons b t₂ =>
      exact absurd ((hm b).mpr (by simp)) (by simp)
  | cons a t₁ ih =>
    intro l₂ h1 h2 hm
    cases l₂ with
    | nil =>
      exact absurd ((hm a).mp (by simp)) (by simp)
    | cons b t₂ =>
      rw [List.pairwise_cons] at h1 h2
      obtain ⟨ha, ht₁⟩ := h1
      obtain ⟨hb, ht₂⟩ := h2
      have hab : a = b := by
        rcases List.mem_cons.mp ((hm a).mp (by simp)) with h | h
        · exact h
        · rcases List.mem_cons.mp ((hm b).mpr (by simp)) with h3 | h3
          · exact h3.symm
          · have := ha b h3
            have := hb a h
            omega
      subst hab
      have hmt : ∀ x, x ∈ t₁ ↔ x ∈ t₂ := by
        intro x
        constructor
        · intro hx
          have hne : x ≠ a := by
            have := ha x hx
            omega
          rcases List.mem_cons.mp ((hm x).mp (List.mem_cons_of_mem _ hx)) with h | h
          · exact absurd h hne
          · exact h
        · intro hx
          have hne : x ≠ a := by
            have := hb x hx
            omega
          rcases List.mem_cons.mp ((hm x).mpr (List.mem_cons_of_mem _ hx)) with h | h
          · exact absurd h hne
          · exact h
      rw [ih t₂ ht₁ ht₂ hmt]

theorem regContribs_isSome_of_filtered (raw : List VotingRegistration) (t : Nat)
    (s : Snapshot) (h : from_raw_snapshot raw t = some s)
    (r : VotingRegistration) (hr : r ∈ filteredRegs raw t) :
    (regContribs r).isSome := by
  have hsome : (from_raw_snapshot raw t).isSome = true := by
    rw [h]
    rfl
  rw [from_raw_snapshot_isSome] at hsome
  exact List.all_eq_true.mp hsome r hr

theorem mem_lookupM_of_mem_contribs (raw : List VotingRegistration) (t : Nat)
    (s : Snapshot) (h : from_raw_snapshot raw t = some s)
    (r : VotingRegistration) (hr : r ∈ filteredRegs raw t)
    (p : Identifier × KeyContribution) (hp : p ∈ (regContribs r).getD []) :
    p.2 ∈ lookupM s.inner p.1 := by
  obtain ⟨hs, hn, hl⟩ := from_raw_snapshot_spec raw t s h
  rw [hl p.1]
  unfold proj
  apply List.mem_filterMap.mpr
  refine ⟨p, ?_, by simp⟩
  unfold contribsOf
  exact List.mem_flatMap.mpr ⟨r, hr, hp⟩

/-! Claims -/

/-- C1: for every registration that survives the threshold and voting-purpose
filters of `from_raw_snapshot`, the distribution step succeeds and the sum of
the values of all contributions it produces across its delegated voting keys
(legacy single key, or all entries of a weighted delegation including the
remainder-absorbing last entry) equals exactly its original voting power. -/
theorem c1_sum_preservation (raw : List VotingRegistration) (t : Nat)
    (s : Snapshot) (r : VotingRegistration)
    (h : from_raw_snapshot raw t = some s) (hr : r ∈ raw)
    (ht : t ≤ r.voting_power)
    (hp : r.voting_purpose = CATALYST_VOTING_PURPOSE_TAG) :
    (regContribs r).isSome ∧
      (((regContribs r).getD []).map fun q => q.2.value).sum = r.voting_power := by
  have hmem : r ∈ filteredRegs raw t := (mem_filteredRegs raw t r).mpr ⟨hr, ht, hp⟩
  have hsome : (from_raw_snapshot raw t).isSome = true := by
    rw [h]
    rfl
  rw [from_raw_snapshot_isSome] at hsome
  have hrs := List.all_eq_true.mp hsome r hmem
  obtain ⟨l, hl⟩ := Option.isSome_iff_exists.mp hrs
  refine ⟨by rw [hl]; rfl, ?_⟩
  rw [hl, Option.getD_some]
  exact distribute_sum r.reward_address r.voting_power r.delegations l hl

/-- Witness for C1 at a registration with voting power 7 split over three
equally weighted keys, surviving threshold 5. -/
theorem c1_sum_preservation_witness :
    (regContribs ⟨"s", 7, "a", .New [(1, 1), (2, 1), (3, 1)], 0⟩).isSome ∧
      (((regContribs ⟨"s", 7, "a", .New [(1, 1), (2, 1), (3, 1)], 0⟩).getD []).map
        fun q => q.2.value).sum = 7 :=
  c1_sum_preservation [⟨"s", 7, "a", .New [(1, 1), (2, 1), (3, 1)], 0⟩] 5
    { inner := [(1, [⟨"a", 2⟩]), (2, [⟨"a", 2⟩]), (3, [⟨"a", 3⟩])],
      stake_threshold := 5 }
    ⟨"s", 7, "a", .New [(1, 1), (2, 1), (3, 1)], 0⟩
    (by decide) (by decide) (by decide) (by decide)

/-- C4: ten registrations of voting powers 1..10, each delegating with weights
(K1, 1) then (K2, 1) in that order, yield per-key contribution sums of exactly
25 for K1 and 30 for K2 (K2, listed last, absorbs each odd power's remainder). -/
theorem c4_remainder_determinism :
    (from_raw_snapshot
      [⟨"", 1, "", .New [(1, 1), (2, 1)], 0⟩, ⟨"", 2, "", .New [(1, 1), (2, 1)], 0⟩,
       ⟨"", 3, "", .New [(1, 1), (2, 1)], 0⟩, ⟨"", 4, "", .New [(1, 1), (2, 1)], 0⟩,
       ⟨"", 5, "", .New [(1, 1), (2, 1)], 0⟩, ⟨"", 6, "", .New [(1, 1), (2, 1)], 0⟩,
       ⟨"", 7, "", .New [(1, 1), (2, 1)], 0⟩, ⟨"", 8, "", .New [(1, 1), (2, 1)], 0⟩,
       ⟨"", 9, "", .New [(1, 1), (2, 1)], 0⟩, ⟨"", 10, "", .New [(1, 1), (2, 1)], 0⟩]
      0).map
      (fun s =>
        (((s.contributions_for_voting_key 1).map fun c => c.value).sum,
         ((s.contributions_for_voting_key 2).map fun c => c.value).sum)) =
    some (25, 30) := by
  decide

/-- C6: building with threshold `t` yields the same key-to-contributions
mapping as first filtering the raw input to registrations with voting power
at least `t` and then building with threshold 0; the results differ at most
in the stored `stake_threshold` field. -/
theorem c6_threshold_equivalence (raw : List VotingRegistration) (t : Nat) :
    (from_raw_snapshot raw t).map (fun s => s.inner) =
      (from_raw_snapshot (raw.filter fun reg => t ≤ reg.voting_power) 0).map
        (fun s => s.inner) := by
  have hL : filteredRegs (raw.filter fun reg => t ≤ reg.voting_power) 0 =
      filteredRegs raw t := by
    unfold filteredRegs
    have hinner :
        (raw.filter fun reg => decide (t ≤ reg.voting_power)).filter
            (fun reg => decide (0 ≤ reg.voting_power)) =
          raw.filter fun reg => decide (t ≤ reg.voting_power) :=
      List.filter_eq_self.mpr fun a _ => by simp
    rw [hinner]
  rw [from_raw_snapshot_eq, from_raw_snapshot_eq, hL]
  cases buildInner (filteredRegs raw t) [] <;> rfl

/-- C8: under the upstream decoder's contract — every weighted delegation list
is non-empty and every weight is a positive integer — `from_raw_snapshot`
cannot fail: the pop of the last weighted entry never hits its failure branch
and the division by the total weight never divides by zero. -/
theorem c8_no_failure_under_contract (raw : List VotingRegistration) (t : Nat)
    (hw : ∀ r ∈ raw, WfReg r) : (from_raw_snapshot raw t).isSome := by
  rw [from_raw_snapshot_isSome]
  apply List.all_eq_true.mpr
  intro r hr
  exact regContribs_isSome_of_wf r (hw r ((mem_filteredRegs raw t r).mp hr).1)

/-- Witness for C8 on a mixed raw snapshot satisfying the contract. -/
theorem c8_no_failure_under_contract_witness :
    (from_raw_snapshot
      [⟨"", 3, "a", .New [(1, 2)], 0⟩, ⟨"", 5, "b", .Legacy 4, 1⟩,
       ⟨"", 0, "c", .New [(2, 1), (7, 3)], 0⟩] 2).isSome :=
  c8_no_failure_under_contract
    [⟨"", 3, "a", .New [(1, 2)], 0⟩, ⟨"", 5, "b", .Legacy 4, 1⟩,
     ⟨"", 0, "c", .New [(2, 1), (7, 3)], 0⟩] 2 (by decide)

/-- C9: `contributions_for_voting_key` is total: it returns the key's recorded
contribution list when the key is present and the empty list when the key is
absent, never an error. -/
theorem c9_query_total (raw : List VotingRegistration) (t : Nat) (s : Snapshot)
    (h : from_raw_snapshot raw t = some s) (k : Identifier) :
    (∀ cs, (k, cs) ∈ s.inner → s.contributions_for_voting_key k = cs) ∧
      (k ∉ s.voting_keys → s.contributions_for_voting_key k = []) := by
  obtain ⟨hs, hn, hl⟩ := from_raw_snapshot_spec raw t s h
  constructor
  · intro cs hcs
    rw [contributions_eq_lookupM]
    exact lookupM_entry s.inner hs k cs hcs
  · intro hk
    rw [contributions_eq_lookupM]
    apply lookupM_eq_nil_of_forall_ne
    intro e he hek
    exact hk (List.mem_map.mpr ⟨e, he, hek⟩)

/-- Witness for C9: a present key returns its stored list, an absent key
returns the empty list. -/
theorem c9_query_total_witness :
    ({ inner := [(3, [⟨"a", 1⟩])], stake_threshold := 0 } :
        Snapshot).contributions_for_voting_key 3 = [⟨"a", 1⟩] ∧
      ({ inner := [(3, [⟨"a", 1⟩])], stake_threshold := 0 } :
        Snapshot).contributions_for_voting_key 4 = [] :=
  ⟨(c9_query_total [⟨"", 1, "a", .Legacy 3, 0⟩] 0
      { inner := [(3, [⟨"a", 1⟩])], stake_threshold := 0 } (by decide) 3).1
      [⟨"a", 1⟩] (by decide),
   (c9_query_total [⟨"", 1, "a", .Legacy 3, 0⟩] 0
      { inner := [(3, [⟨"a", 1⟩])], stake_threshold := 0 } (by decide) 4).2
      (by decide)⟩

/-- C10: every contribution recorded from a weighted (multi-key) delegation has
a strictly positive value — zero floor-shares are skipped and the last entry is
pushed only when its remainder is non-zero — while a legacy delegation always
contributes exactly its voting power, so a zero-valued contribution can appear
only via a legacy delegation with voting power 0. -/
theorem c10_weighted_contribs_positive :
    (∀ reward vp vks l, distribute reward vp (.New vks) = some l →
        ∀ q ∈ l, 0 < q.2.value) ∧
      (∀ reward vp vk l, distribute reward vp (.Legacy vk) = some l →
        ∀ q ∈ l, q.2.value = vp) := by
  constructor
  · intro reward vp vks l h
    exact distribute_new_pos reward vp vks l h
  · intro reward vp vk l h
    unfold distribute at h
    injection h with h
    rw [← h]
    intro q hq
    rcases List.mem_cons.mp hq with hq | hq
    · subst hq
      rfl
    · cases hq

/-- Witness for C10 at a weighted delegation of power 7 over two keys and a
legacy delegation of power 0. -/
theorem c10_weighted_contribs_positive_witness :
    0 < ((⟨"a", 3⟩ : KeyContribution)).value ∧
      ((⟨"b", 0⟩ : KeyContribution)).value = 0 :=
  ⟨c10_weighted_contribs_positive.1 "a" 7 [(1, 1), (2, 1)]
      [(1, ⟨"a", 3⟩), (2, ⟨"a", 4⟩)] (by decide) (1, ⟨"a", 3⟩) (by decide),
   c10_weighted_contribs_positive.2 "b" 0 5 [(5, ⟨"b", 0⟩)] (by decide)
      (5, ⟨"b", 0⟩) (by decide)⟩

/-- C2 counterexample: a registration with a weighted delegation and voting
power 0 passes both filters (threshold 0, matching purpose) yet the resulting
Snapshot records no contribution at all — its delegated key is absent rather
than present with a zero-valued entry, refuting the claimed equivalence. -/
theorem c2_presence_counterexample :
    ((0 : Nat) ≤ 0 ∧ (0 : Nat) = CATALYST_VOTING_PURPOSE_TAG) ∧
      from_raw_snapshot [⟨"s", 0, "a", .New [(7, 1)], 0⟩] 0 =
        some { inner := [], stake_threshold := 0 } := by
  constructor
  · exact ⟨Nat.le_refl 0, rfl⟩
  · decide

/-- C2 (amended): for every raw snapshot and threshold, a registration that
passes the threshold and purpose filters has at least one of the contributions
it produces present in the resulting Snapshot under its delegated key if and
only if its delegation is legacy or its voting power is non-zero (a weighted
delegation of power 0 emits nothing, leaving the key absent); conversely every
contribution present in the Snapshot was produced by a registration passing
both filters; and with threshold 0 a single LEGACY registration of voting
power 0 yields one zero-valued entry at its delegated key. -/
theorem c2_presence_iff_amended :
    (∀ raw t s, from_raw_snapshot raw t = some s →
      ∀ r ∈ raw, t ≤ r.voting_power →
        r.voting_purpose = CATALYST_VOTING_PURPOSE_TAG →
        (((∃ vk, r.delegations = .Legacy vk) ∨ r.voting_power ≠ 0) ↔
          ∃ p, p ∈ (regContribs r).getD [] ∧
            p.2 ∈ s.contributions_for_voting_key p.1)) ∧
      (∀ raw t s, from_raw_snapshot raw t = some s →
        ∀ k c, c ∈ s.contributions_for_voting_key k →
          ∃ r, r ∈ raw ∧ t ≤ r.voting_power ∧
            r.voting_purpose = CATALYST_VOTING_PURPOSE_TAG ∧
            (k, c) ∈ (regContribs r).getD []) ∧
      ∀ sk reward vk,
        from_raw_snapshot [⟨sk, 0, reward, .Legacy vk, CATALYST_VOTING_PURPOSE_TAG⟩] 0 =
          some { inner := [(vk, [⟨reward, 0⟩])], stake_threshold := 0 } := by
  refine ⟨?_, ?_, ?_⟩
  · intro raw t s h r hr ht hp
    have hmem : r ∈ filteredRegs raw t := (mem_filteredRegs raw t r).mpr ⟨hr, ht, hp⟩
    have hsome := regContribs_isSome_of_filtered raw t s h r hmem
    obtain ⟨l, hl⟩ := Option.isSome_iff_exists.mp hsome
    constructor
    · intro hcond
      have hne : l ≠ [] := by
        rcases hcond with ⟨vk, hd⟩ | hvp
        · have hc2 : distribute r.reward_address r.voting_power (.Legacy vk) =
              some l := by
            rw [← hd]
            exact hl
          unfold distribute at hc2
          injection hc2 with hc2
          rw [← hc2]
          simp
        · cases hd : r.delegations with
          | Legacy vk =>
            have hc2 : distribute r.reward_address r.voting_power (.Legacy vk) =
                some l := by
              rw [← hd]
              exact hl
            unfold distribute at hc2
            injection hc2 with hc2
            rw [← hc2]
            simp
          | New vks =>
            have hc2 : distribute r.reward_address r.voting_power (.New vks) =
                some l := by
              rw [← hd]
              exact hl
            exact fun hnil => hvp ((distribute_new_nil_iff _ _ _ _ hc2).mp hnil)
      obtain ⟨p, hp2⟩ := List.exists_mem_of_ne_nil l hne
      refine ⟨p, ?_, ?_⟩
      · rw [hl]
        exact hp2
      · rw [contributions_eq_lookupM]
        exact mem_lookupM_of_mem_contribs raw t s h r hmem p
          (by rw [hl]; exact hp2)
    · rintro ⟨p, hpmem, hpin⟩
      cases hd : r.delegations with
      | Legacy vk =>
        exact Or.inl ⟨vk, rfl⟩
      | New vks =>
        right
        intro hvp0
        have hc2 : distribute r.reward_address r.voting_power (.New vks) =
            some l := by
          rw [← hd]
          exact hl
        have hlnil : l = [] := (distribute_new_nil_iff _ _ _ _ hc2).mpr hvp0
        rw [hl] at hpmem
        rw [show (some l).getD [] = l from rfl, hlnil] at hpmem
        cases hpmem
  · intro raw t s h k c hc
    rw [contributions_eq_lookupM] at hc
    obtain ⟨hs, hn, hl⟩ := from_raw_snapshot_spec raw t s h
    rw [hl k] at hc
    unfold proj at hc
    obtain ⟨q, hq, hqc⟩ := List.mem_filterMap.mp hc
    by_cases hqk : q.1 = k
    · rw [if_pos hqk] at hqc
      injection hqc with hqc
      unfold contribsOf at hq
      obtain ⟨r, hrmem, hrp⟩ := List.mem_flatMap.mp hq
      obtain ⟨hraw, ht, hp⟩ := (mem_filteredRegs raw t r).mp hrmem
      refine ⟨r, hraw, ht, hp, ?_⟩
      have hqeq : q = (k, c) := by
        obtain ⟨q1, q2⟩ := q
        simp only at hqk hqc
        rw [hqk, hqc]
      rw [← hqeq]
      exact hrp
    · rw [if_neg hqk] at hqc
      cases hqc
  · intro sk reward vk
    rfl

/-- Witness for C2 (amended): a surviving legacy registration of power 1 has
its contribution present, that contribution traces back to a surviving
registration, and the zero-power legacy scenario yields a single zero-valued
entry. -/
theorem c2_presence_iff_amended_witness :
    (∃ p, p ∈ (regContribs ⟨"s", 1, "a", .Legacy 5, 0⟩).getD [] ∧
        p.2 ∈ ({ inner := [(5, [⟨"a", 1⟩])], stake_threshold := 0 } :
          Snapshot).contributions_for_voting_key p.1) ∧
      (∃ r, r ∈ [(⟨"s", 1, "a", .Legacy 5, 0⟩ : VotingRegistration)] ∧
        (0 : Nat) ≤ r.voting_power ∧
        r.voting_purpose = CATALYST_VOTING_PURPOSE_TAG ∧
        ((5 : Identifier), (⟨"a", 1⟩ : KeyContribution)) ∈ (regContribs r).getD []) ∧
      from_raw_snapshot [⟨"s", 0, "a", .Legacy 5, CATALYST_VOTING_PURPOSE_TAG⟩] 0 =
        some { inner := [(5, [⟨"a", 0⟩])], stake_threshold := 0 } :=
  ⟨(c2_presence_iff_amended.1 [⟨"s", 1, "a", .Legacy 5, 0⟩] 0
      { inner := [(5, [⟨"a", 1⟩])], stake_threshold := 0 } (by decide)
      ⟨"s", 1, "a", .Legacy 5, 0⟩ (by decide) (by decide) rfl).mp
      (Or.inl ⟨5, rfl⟩),
   c2_presence_iff_amended.2.1 [⟨"s", 1, "a", .Legacy 5, 0⟩] 0
      { inner := [(5, [⟨"a", 1⟩])], stake_threshold := 0 } (by decide) 5 ⟨"a", 1⟩
      (by decide),
   c2_presence_iff_amended.2.2 "s" "a" 5⟩

/-- C3 counterexample: at voting power 0, a single-entry weighted delegation
produces an empty Snapshot while the legacy delegation produces a zero-valued
entry, so the claimed equivalence fails for voting power 0. -/
theorem c3_single_delegate_counterexample :
    from_raw_snapshot [⟨"s", 0, "a", .New [(5, 1)], 0⟩] 0 ≠
      from_raw_snapshot [⟨"s", 0, "a", .Legacy 5, 0⟩] 0 := by
  decide

/-- C3 (amended): for every NON-ZERO voting power, weight, reward address,
purpose and threshold, a registration with a weighted delegation of exactly one
(key, weight) entry produces via `from_raw_snapshot` the same Snapshot as an
otherwise identical registration with a legacy delegation to that key. -/
theorem c3_single_delegate_equiv_amended (sk reward : String)
    (vp purpose w t : Nat) (vk : Identifier) (hvp : vp ≠ 0) :
    from_raw_snapshot [⟨sk, vp, reward, .New [(vk, w)], purpose⟩] t =
      from_raw_snapshot [⟨sk, vp, reward, .Legacy vk, purpose⟩] t := by
  have hreg : regContribs ⟨sk, vp, reward, .New [(vk, w)], purpose⟩ =
      regContribs ⟨sk, vp, reward, .Legacy vk, purpose⟩ := by
    show distribute reward vp (.New [(vk, w)]) = distribute reward vp (.Legacy vk)
    unfold distribute
    simp [otherShares, Ne.symm hvp]
  rw [from_raw_snapshot_eq, from_raw_snapshot_eq, filteredRegs_singleton,
    filteredRegs_singleton]
  by_cases hpass : t ≤ vp ∧ purpose = CATALYST_VOTING_PURPOSE_TAG
  · rw [if_pos hpass, if_pos hpass]
    rw [show buildInner [⟨sk, vp, reward, .New [(vk, w)], purpose⟩] [] =
        buildInner [⟨sk, vp, reward, .Legacy vk, purpose⟩] [] by
      unfold buildInner
      rw [hreg]]
  · rw [if_neg hpass, if_neg hpass]

/-- Witness for C3 (amended) at voting power 4, weight 9, threshold 0. -/
theorem c3_single_delegate_equiv_amended_witness :
    from_raw_snapshot [⟨"s", 4, "a", .New [(2, 9)], 0⟩] 0 =
      from_raw_snapshot [⟨"s", 4, "a", .Legacy 2, 0⟩] 0 :=
  c3_single_delegate_equiv_amended "s" "a" 4 0 9 0 2 (by decide)

/-- C5 counterexample: swapping two registrations that both delegate to the
same key permutes that key's contribution list, and the Rust `PartialEq` on
`Snapshot` (modelled by equality here) distinguishes the two results, so the
output Snapshot is NOT equal under permutation of the input. -/
theorem c5_order_dependence_counterexample :
    ([⟨"", 1, "a", .Legacy 0, 0⟩, ⟨"", 2, "b", .Legacy 0, 0⟩] :
        List VotingRegistration).Perm
      [⟨"", 2, "b", .Legacy 0, 0⟩, ⟨"", 1, "a", .Legacy 0, 0⟩] ∧
      from_raw_snapshot [⟨"", 1, "a", .Legacy 0, 0⟩, ⟨"", 2, "b", .Legacy 0, 0⟩] 0 ≠
        from_raw_snapshot [⟨"", 2, "b", .Legacy 0, 0⟩, ⟨"", 1, "a", .Legacy 0, 0⟩] 0 :=
  ⟨List.Perm.swap _ _ _, by decide⟩

/-- C5 (amended): permuting the input registrations preserves success of the
construction, the (deterministically ordered) key set, and each key's multiset
of contributions — but not necessarily the order within a key's contribution
list, which follows input processing order. -/
theorem c5_order_independence_amended (raw raw' : List VotingRegistration)
    (t : Nat) (hperm : raw.Perm raw') :
    (from_raw_snapshot raw t).isSome = (from_raw_snapshot raw' t).isSome ∧
      ∀ s s', from_raw_snapshot raw t = some s →
        from_raw_snapshot raw' t = some s' →
        s.voting_keys = s'.voting_keys ∧
          ∀ k, (s.contributions_for_voting_key k).Perm
            (s'.contributions_for_voting_key k) := by
  have hf : (filteredRegs raw t).Perm (filteredRegs raw' t) :=
    (hperm.filter _).filter _
  constructor
  · rw [from_raw_snapshot_isSome, from_raw_snapshot_isSome]
    exact all_of_perm _ _ _ hf
  · intro s s' h h'
    obtain ⟨hs1, hn1, hl1⟩ := from_raw_snapshot_spec raw t s h
    obtain ⟨hs2, hn2, hl2⟩ := from_raw_snapshot_spec raw' t s' h'
    have hc : (contribsOf (filteredRegs raw t)).Perm
        (contribsOf (filteredRegs raw' t)) := hf.flatMap_right _
    have hpk : ∀ k, (lookupM s.inner k).Perm (lookupM s'.inner k) := by
      intro k
      rw [hl1 k, hl2 k]
      exact hc.filterMap _
    refine ⟨?_, fun k => hpk k⟩
    apply eq_of_sorted_of_mem_iff
    · exact List.pairwise_map.mpr hs1
    · exact List.pairwise_map.mpr hs2
    · intro a
      rw [show s.voting_keys = s.inner.map Prod.fst from rfl,
        show s'.voting_keys = s'.inner.map Prod.fst from rfl] at *
      rw [mem_keys_iff_lookupM_ne_nil s.inner hn1 a,
        mem_keys_iff_lookupM_ne_nil s'.inner hn2 a]
      constructor
      · intro hne h0
        apply hne
        have hp := hpk a
        rw [h0] at hp
        exact hp.eq_nil
      · intro hne h0
        apply hne
        have hp := (hpk a).symm
        rw [h0] at hp
        exact hp.eq_nil

/-- Witness for C5 (amended) on two swapped legacy registrations to the same
key. -/
theorem c5_order_independence_amended_witness :
    ((from_raw_snapshot [⟨"", 1, "a", .Legacy 0, 0⟩, ⟨"", 2, "b", .Legacy 0, 0⟩]
        0).isSome =
      (from_raw_snapshot [⟨"", 2, "b", .Legacy 0, 0⟩, ⟨"", 1, "a", .Legacy 0, 0⟩]
        0).isSome) ∧
      ({ inner := [(0, [⟨"a", 1⟩, ⟨"b", 2⟩])], stake_threshold := 0 } :
          Snapshot).voting_keys =
        ({ inner := [(0, [⟨"b", 2⟩, ⟨"a", 1⟩])], stake_threshold := 0 } :
          Snapshot).voting_keys ∧
      (({ inner := [(0, [⟨"a", 1⟩, ⟨"b", 2⟩])], stake_threshold := 0 } :
          Snapshot).contributions_for_voting_key 0).Perm
        (({ inner := [(0, [⟨"b", 2⟩, ⟨"a", 1⟩])], stake_threshold := 0 } :
          Snapshot).contributions_for_voting_key 0) := by
  have h := c5_order_independence_amended
    [⟨"", 1, "a", .Legacy 0, 0⟩, ⟨"", 2, "b", .Legacy 0, 0⟩]
    [⟨"", 2, "b", .Legacy 0, 0⟩, ⟨"", 1, "a", .Legacy 0, 0⟩] 0
    (List.Perm.swap _ _ _)
  have h2 := h.2
    { inner := [(0, [⟨"a", 1⟩, ⟨"b", 2⟩])], stake_threshold := 0 }
    { inner := [(0, [⟨"b", 2⟩, ⟨"a", 1⟩])], stake_threshold := 0 }
    (by decide) (by decide)
  exact ⟨h.1, h2.1, h2.2 0⟩

/-- C7: the genesis exporter emits exactly one record per distinct voting key,
whose value is the sum of that key's contribution values and whose address is
derived deterministically from the key and the discrimination mode, in the
Snapshot's deterministic key order; zero-sum keys still produce a record. -/
theorem c7_export_correctness (raw : List VotingRegistration) (t : Nat)
    (s : Snapshot) (d : Discrimination)
    (h : from_raw_snapshot raw t = some s) :
    s.voting_keys.Nodup ∧
      s.to_block0_initials d =
        s.voting_keys.map fun k =>
          (⟨d, k⟩, ((s.contributions_for_voting_key k).map fun c => c.value).sum) := by
  obtain ⟨hs, hn, _⟩ := from_raw_snapshot_spec raw t s h
  constructor
  · exact List.Pairwise.imp (fun hab => Nat.ne_of_lt hab) (List.pairwise_map.mpr hs)
  · show s.inner.map _ = (s.inner.map Prod.fst).map _
    rw [List.map_map]
    apply List.map_congr_left
    intro e he
    obtain ⟨k, cs⟩ := e
    simp only [Function.comp]
    rw [contributions_eq_lookupM, lookupM_entry s.inner hs k cs he]

/-- Witness for C7 on a snapshot holding one positive-sum key and one zero-sum
key, exported for the test network. -/
theorem c7_export_correctness_witness :
    ({ inner := [(2, [⟨"a", 5⟩]), (9, [⟨"b", 0⟩])], stake_threshold := 0 } :
        Snapshot).voting_keys.Nodup ∧
      ({ inner := [(2, [⟨"a", 5⟩]), (9, [⟨"b", 0⟩])], stake_threshold := 0 } :
          Snapshot).to_block0_initials .Test =
        ({ inner := [(2, [⟨"a", 5⟩]), (9, [⟨"b", 0⟩])], stake_threshold := 0 } :
            Snapshot).voting_keys.map fun k =>
          (⟨.Test, k⟩,
            ((({ inner := [(2, [⟨"a", 5⟩]), (9, [⟨"b", 0⟩])], stake_threshold := 0 } :
                Snapshot).contributions_for_voting_key k).map fun c => c.value).sum) :=
  c7_export_correctness [⟨"", 5, "a", .Legacy 2, 0⟩, ⟨"", 0, "b", .Legacy 9, 0⟩] 0
    { inner := [(2, [⟨"a", 5⟩]), (9, [⟨"b", 0⟩])], stake_threshold := 0 } .Test
    (by decide)

end CatalystSnapshot
